import Mathlib

/-!
Verification of the schema-driven record codec (ExampleProtoCoder) and the
transform-function persistence layer of this repository.

The codec implementation itself is not present under src/ (only its test,
src/tensorflow_transform/coders/example_proto_coder_test.py, is); the codec is
therefore modelled from the specification, with the concrete behaviour pinned
by the in-repository test taken as authoritative where the two differ.
Wire bytes are modelled by their parsed wire record: the spec (§6) allows any
concrete byte format satisfying the three-variant typed-list contract, and the
parse is a bijection between such byte strings and wire records, so every
statement about wire bytes is stated on the parsed record.

The persistence layer (src/tensorflow_transform/beam/io/transform_fn_io.py) is
embedded directly from its source.
-/

namespace Transform

/-- Declared element type of a feature: integer, floating point, or byte
string (spec §1, §3).  Floating-point values are modelled as rationals, which
is faithful for the logical (list-structure and equality) properties proved
here. -/
inductive DType
  | int
  | float
  | bytes
deriving DecidableEq, Repr

/-- Modelled from the spec: a wire field's value is exactly one of three
homogeneous typed list variants — integer list, float list, byte-string list
(spec §3 "Wire record", §6). -/
inductive TypedList
  | ints (l : List Int)
  | floats (l : List ℚ)
  | strs (l : List String)
deriving DecidableEq, Repr

/-- Variant tag of a typed list. -/
def TypedList.dtype : TypedList → DType
  | .ints _ => .int
  | .floats _ => .float
  | .strs _ => .bytes

/-- Number of values held by a typed list. -/
def TypedList.len : TypedList → Nat
  | .ints l => l.length
  | .floats l => l.length
  | .strs l => l.length

/-- Empty typed list of a given dtype (the value an absent wire field stands
for, spec §3). -/
def TypedList.emptyOf : DType → TypedList
  | .int => .ints []
  | .float => .floats []
  | .bytes => .strs []

/-- Modelled from the spec: an instance value is a bare typed scalar (FixedLen
with shape []), an ordered typed sequence (vector FixedLen / VarLen), or a
(values, indices) pair (SparseFeature) — spec §3 "Instance". -/
inductive Value
  | intScalar (n : Int)
  | floatScalar (q : ℚ)
  | strScalar (s : String)
  | seq (tl : TypedList)
  | sparse (values : TypedList) (indices : List Int)
deriving DecidableEq, Repr

/-- Number of logical values of an instance value (a scalar counts as one). -/
def Value.len : Value → Nat
  | .intScalar _ => 1
  | .floatScalar _ => 1
  | .strScalar _ => 1
  | .seq tl => tl.len
  | .sparse vals _ => vals.len

/-- A wire record: mapping from wire-field name to a typed list (spec §3). -/
abbrev WireRecord := List (String × TypedList)

/-- An instance: mapping from logical feature name to a value (spec §3). -/
abbrev Instance := List (String × Value)

/-- Error taxonomy of the codec (spec §7). -/
inductive CodecError
  | schemaError (msg : String)
  | malformedRecord (msg : String)
  | missingFeature (msg : String)
  | featureShape (msg : String)
deriving DecidableEq, Repr

/-- Modelled from the spec: FeatureSpec tagged variant (spec §3). -/
inductive FeatureSpec
  | fixedLen (shape : List Nat) (dtype : DType)
  | varLen (dtype : DType)
  | sparseFeature (indexKey : String) (valueKey : String) (dtype : DType) (size : Nat)
deriving DecidableEq, Repr

/-- A schema: ordered mapping from feature name to FeatureSpec (spec §3). -/
abbrev Schema := List (String × FeatureSpec)

/-- Product of the dimensions of a FixedLen shape (spec §3: exactly
product(shape) values must be present). -/
def shapeProd (shape : List Nat) : Nat :=
  shape.foldr (· * ·) 1

/-- First-match lookup in an association list (the mapping semantics used for
wire records and instances). -/
def lookupKey (k : String) : List (String × α) → Option α
  | [] => none
  | (k', v) :: rest => if k' = k then some v else lookupKey k rest

/-- Wire-field names produced/consumed by one schema entry: one for
FixedLen/VarLen (the feature name itself), two for SparseFeature (spec §3). -/
def wireNames (name : String) : FeatureSpec → List String
  | .fixedLen _ _ => [name]
  | .varLen _ => [name]
  | .sparseFeature ik vk _ _ => [ik, vk]

/-- All wire-field names of a schema, in schema order. -/
def schemaWireNames : Schema → List String
  | [] => []
  | (name, fs) :: rest => wireNames name fs ++ schemaWireNames rest

/-- Schema invariant (spec §3, §4.1): the schema is a mapping, so logical
feature names are pairwise distinct, and wire-field names across all
FeatureSpecs are pairwise distinct. -/
def wellFormed (s : Schema) : Prop :=
  (s.map Prod.fst).Nodup ∧ (schemaWireNames s).Nodup

instance (s : Schema) : Decidable (wellFormed s) :=
  inferInstanceAs (Decidable (_ ∧ _))

/-- Effective typed list for a wire field: an absent field is equivalent to an
empty list of the expected dtype (spec §3). -/
def getField (r : WireRecord) (k : String) (d : DType) : TypedList :=
  (lookupKey k r).getD (TypedList.emptyOf d)

/-- Declared dtype of a wire-field name under a schema (the index field of a
SparseFeature is an integer list). -/
def wireDTypeOf : Schema → String → Option DType
  | [], _ => none
  | (name, .fixedLen _ d) :: rest, k =>
      if name = k then some d else wireDTypeOf rest k
  | (name, .varLen d) :: rest, k =>
      if name = k then some d else wireDTypeOf rest k
  | (_, .sparseFeature ik vk d _) :: rest, k =>
      if ik = k then some .int else if vk = k then some d else wireDTypeOf rest k

/-- Decode of a one-element wire list into a bare typed scalar (FixedLen with
shape [], spec §8 "Scalar shape collapse"); any other length is a length
mismatch. -/
def decodeScalar : TypedList → Except CodecError Value
  | .ints [n] => .ok (.intScalar n)
  | .floats [q] => .ok (.floatScalar q)
  | .strs [s] => .ok (.strScalar s)
  | _ => .error (.malformedRecord "feature length mismatch")

/-- Integer list held by a typed list, when it is the integer variant. -/
def TypedList.asInts : TypedList → Option (List Int)
  | .ints l => some l
  | _ => none

/-- Modelled from the spec: per-feature decode strategy (spec §4.2–§4.3).
FixedLen reads its single wire field (absent means empty), checks the typed
list variant against the declared dtype, then for shape [] collapses a
one-element list to a bare scalar, and otherwise checks the length against
product(shape) — except that a shape of zero product accepts a wire value of
any length and returns it unchanged, the behaviour pinned by the repository's
test, which decodes a one-element list for a shape=[0] feature.  VarLen reads
its field (absent means empty) and returns the sequence.  SparseFeature reads
its two wire fields and zips them into a (values, indices) pair, failing when
the two lists differ in length. -/
def decodeFeature (name : String) (fs : FeatureSpec) (r : WireRecord) :
    Except CodecError Value :=
  match fs with
  | .fixedLen shape d =>
      let tl := getField r name d
      if tl.dtype ≠ d then
        .error (.malformedRecord "wire list variant inconsistent with declared dtype")
      else
        match shape with
        | [] => decodeScalar tl
        | _ :: _ =>
            if shapeProd shape = 0 then .ok (.seq tl)
            else if tl.len = shapeProd shape then .ok (.seq tl)
            else .error (.malformedRecord "feature length mismatch")
  | .varLen d =>
      let tl := getField r name d
      if tl.dtype ≠ d then
        .error (.malformedRecord "wire list variant inconsistent with declared dtype")
      else .ok (.seq tl)
  | .sparseFeature ik vk d _ =>
      match (getField r ik .int).asInts with
      | none => .error (.malformedRecord "wire list variant inconsistent with declared dtype")
      | some idxs =>
          let vals := getField r vk d
          if vals.dtype ≠ d then
            .error (.malformedRecord "wire list variant inconsistent with declared dtype")
          else if vals.len = idxs.length then .ok (.sparse vals idxs)
          else .error (.malformedRecord "sparse values and indices length mismatch")

/-- Modelled from the spec: decode assembles the instance by invoking each
feature's decode strategy in schema order; all logical feature names are
present in the result (spec §4.3). -/
def decode : Schema → WireRecord → Except CodecError Instance
  | [], _ => .ok []
  | (name, fs) :: rest, r =>
      match decodeFeature name fs r with
      | .error e => .error e
      | .ok v =>
          match decode rest r with
          | .error e => .error e
          | .ok tail => .ok ((name, v) :: tail)

/-- Encode of a bare typed scalar into a one-element wire list of the declared
dtype (FixedLen with shape [], spec §8 "Scalar shape collapse"). -/
def encodeScalar (d : DType) : Value → Except CodecError TypedList
  | .intScalar n => if d = .int then .ok (.ints [n]) else .error (.featureShape "scalar value does not match declared dtype")
  | .floatScalar q => if d = .float then .ok (.floats [q]) else .error (.featureShape "scalar value does not match declared dtype")
  | .strScalar s => if d = .bytes then .ok (.strs [s]) else .error (.featureShape "scalar value does not match declared dtype")
  | _ => .error (.featureShape "expected a bare scalar value")

/-- Modelled from the spec: per-feature encode strategy (spec §4.2, §4.4),
inverse of the decode strategy.  FixedLen with shape [] encodes a bare scalar
into a one-element list; with nonempty shape it checks the sequence's length
against product(shape) — except that a shape of zero product accepts any
length, matching the repository's test, which encodes a one-element value for
a shape=[0] feature.  VarLen emits the sequence as its single wire field.
SparseFeature checks len(values) = len(indices) and fans the pair out into its
two wire fields. -/
def encodeFeature (name : String) (fs : FeatureSpec) (v : Value) :
    Except CodecError (List (String × TypedList)) :=
  match fs with
  | .fixedLen shape d =>
      match shape with
      | [] =>
          match encodeScalar d v with
          | .error e => .error e
          | .ok tl => .ok [(name, tl)]
      | _ :: _ =>
          match v with
          | .seq tl =>
              if tl.dtype ≠ d then .error (.featureShape "sequence value does not match declared dtype")
              else if shapeProd shape ≠ 0 ∧ tl.len ≠ shapeProd shape then
                .error (.featureShape "feature length mismatch")
              else .ok [(name, tl)]
          | _ => .error (.featureShape "expected a sequence value")
  | .varLen d =>
      match v with
      | .seq tl =>
          if tl.dtype ≠ d then .error (.featureShape "sequence value does not match declared dtype")
          else .ok [(name, tl)]
      | _ => .error (.featureShape "expected a sequence value")
  | .sparseFeature ik vk d _ =>
      match v with
      | .sparse vals idxs =>
          if vals.dtype ≠ d then .error (.featureShape "sequence value does not match declared dtype")
          else if vals.len ≠ idxs.length then .error (.featureShape "sparse values and indices length mismatch")
          else .ok [(ik, .ints idxs), (vk, vals)]
      | _ => .error (.featureShape "expected a sparse values and indices pair")

/-- Modelled from the spec: encode walks the schema in order, fetching each
feature's instance value (a missing value is an error unless the feature is
VarLen, where absence is treated as empty) and writing the strategy's wire
fields into a fresh wire record (spec §4.4). -/
def encode : Schema → Instance → Except CodecError WireRecord
  | [], _ => .ok []
  | (name, fs) :: rest, i =>
      match lookupKey name i, fs with
      | none, .varLen d =>
          match encode rest i with
          | .error e => .error e
          | .ok tail => .ok ((name, TypedList.emptyOf d) :: tail)
      | none, .fixedLen _ _ => .error (.missingFeature name)
      | none, .sparseFeature _ _ _ _ => .error (.missingFeature name)
      | some v, _ =>
          match encodeFeature name fs v with
          | .error e => .error e
          | .ok flds =>
              match encode rest i with
              | .error e => .error e
              | .ok tail => .ok (flds ++ tail)

/-- Modelled from the spec: the encode boundary accepts, for the same logical
value, either a plain scalar/sequence representation or an equal-valued
fixed-width numeric-array representation carrying an element bit-width
(spec §4.2 "dual representation", §9).  The width tag is what the array
representation adds over the logical data. -/
inductive RawValue
  | plain (v : Value)
  | array (width : Nat) (v : Value)
deriving DecidableEq, Repr

/-- Modelled from the spec: normalization of an encode-boundary input into the
one canonical internal representation, erasing the array wrapper and its
width tag (spec §9: normalize at the encode boundary before dispatching to
per-feature strategies). -/
def normalizeRaw : RawValue → Value
  | .plain v => v
  | .array _ v => v

/-- Per-feature encode entry point on boundary inputs: normalize, then
dispatch to the feature's encode strategy (spec §9). -/
def encodeFeatureRaw (name : String) (fs : FeatureSpec) (r : RawValue) :
    Except CodecError (List (String × TypedList)) :=
  encodeFeature name fs (normalizeRaw r)

/-- Deterministic rendering of a wire record to a byte string; encode output
compared through this rendering is compared byte for byte. -/
def serializeField (p : String × TypedList) : String :=
  match p.2 with
  | .ints l => p.1 ++ ":i" ++ String.intercalate "," (l.map toString) ++ ";"
  | .floats l => p.1 ++ ":f" ++ String.intercalate "," (l.map toString) ++ ";"
  | .strs l => p.1 ++ ":b" ++ String.intercalate "," l ++ ";"

/-- Deterministic serialization of a whole wire record. -/
def serializeWire (r : WireRecord) : String :=
  String.join (r.map serializeField)

/-- Modelled from the spec: the Codec holds its immutable Schema plus a
mutable scratch container reused across calls purely as an
allocation-avoidance optimization, fully overwritten on each successful call
and never affecting a call's result (spec §2, §4.4 state machine). -/
structure Codec where
  schema : Schema
  scratch : WireRecord
deriving DecidableEq, Repr

/-- Codec construction from a Schema: fresh scratch state (spec §2). -/
def Codec.ofSchema (s : Schema) : Codec :=
  ⟨s, []⟩

/-- An encode call on the Codec: the result depends only on the Schema and the
input; the scratch container is fully overwritten with this call's wire
record (spec §4.4 state machine). -/
def Codec.encodeCall (c : Codec) (i : Instance) :
    Except CodecError WireRecord × Codec :=
  match encode c.schema i with
  | .ok r => (.ok r, ⟨c.schema, r⟩)
  | .error e => (.error e, c)

/-- A decode call on the Codec, with the same scratch discipline as
`Codec.encodeCall`. -/
def Codec.decodeCall (c : Codec) (b : WireRecord) :
    Except CodecError Instance × Codec :=
  match decode c.schema b with
  | .ok i => (.ok i, ⟨c.schema, b⟩)
  | .error e => (.error e, c)

/-- Modelled from the spec: the serialized (pickled) form of a Codec is its
Schema alone — relocation must preserve the Schema and reset all transient
per-call scratch state (spec §5, §6 relocation boundary). -/
def Codec.serializeCodec (c : Codec) : Schema :=
  c.schema

/-- Modelled from the spec: reconstruction (unpickling) rebuilds the Codec
from the Schema alone, with fresh scratch buffers (spec §5, §9). -/
def Codec.reconstructCodec (s : Schema) : Codec :=
  Codec.ofSchema s

/-- Conformance of an instance value to a FeatureSpec (spec §3 "Instance"):
a bare scalar of the declared dtype for FixedLen with shape [], a sequence of
the declared dtype and of length product(shape) for vector FixedLen, a
sequence of the declared dtype for VarLen, and a (values, indices) pair of
equal lengths with values of the declared dtype for SparseFeature. -/
def valueConforms : FeatureSpec → Value → Bool
  | .fixedLen [] .int, .intScalar _ => true
  | .fixedLen [] .float, .floatScalar _ => true
  | .fixedLen [] .bytes, .strScalar _ => true
  | .fixedLen (dim :: dims) d, .seq tl =>
      tl.dtype = d && tl.len = shapeProd (dim :: dims)
  | .varLen d, .seq tl => tl.dtype = d
  | .sparseFeature _ _ d _, .sparse vals idxs =>
      vals.dtype = d && vals.len = idxs.length
  | _, _ => false

/-- Conformance of an instance to a schema: every logical feature is present
with a value matching its FeatureSpec. -/
def instanceConforms (s : Schema) (i : Instance) : Bool :=
  s.all fun p =>
    match lookupKey p.1 i with
    | some v => valueConforms p.2 v
    | none => false

/-- Conformance of a wire record to a schema: every field name belongs to the
schema, no field name repeats, and the record decodes successfully. -/
def wireConforms (s : Schema) (r : WireRecord) : Prop :=
  (r.map Prod.fst).Nodup ∧
  (∀ k ∈ r.map Prod.fst, k ∈ schemaWireNames s) ∧
  ∃ i, decode s r = .ok i

/-- Effective content of a wire field under a schema: the field's typed list
when present, and the empty list of the declared dtype when absent
(spec §3: an absent wire field is equivalent to an empty list of the
expected type). -/
def effField (s : Schema) (r : WireRecord) (k : String) : Option TypedList :=
  match lookupKey k r with
  | some tl => some tl
  | none => (wireDTypeOf s k).map TypedList.emptyOf

/-- Logical equality of two wire records under a schema: every wire field of
the schema holds the same typed list of values, an absent field standing for
the empty list of its declared dtype; field order is not compared. -/
def wireEquiv (s : Schema) (r₁ r₂ : WireRecord) : Prop :=
  ∀ k ∈ schemaWireNames s, effField s r₁ k = effField s r₂ k

/-- Declared dtype of one wire field of a feature (the index field of a
SparseFeature holds integers, everything else holds the feature's dtype). -/
def featureWireDType (fs : FeatureSpec) (k : String) : DType :=
  match fs with
  | .fixedLen _ d => d
  | .varLen d => d
  | .sparseFeature ik _ d _ => if ik = k then .int else d

/-- A bare scalar value (as opposed to a sequence or a sparse pair). -/
def Value.isScalar : Value → Bool
  | .intScalar _ => true
  | .floatScalar _ => true
  | .strScalar _ => true
  | .seq _ => false
  | .sparse _ _ => false

/-- A FixedLen or VarLen feature (one whose single wire field is the feature
name itself). -/
def FeatureSpec.isDense : FeatureSpec → Bool
  | .fixedLen _ _ => true
  | .varLen _ => true
  | .sparseFeature _ _ _ _ => false

/-- Concrete schema of the spec's §8 scenario: a scalar integer feature, a
variable-length float feature, and a sparse float feature stored under wire
fields "idx" and "val". -/
def scenarioSchema : Schema :=
  [("a", .fixedLen [] .int), ("b", .varLen .float),
   ("s", .sparseFeature "idx" "val" .float 10)]

/-- Concrete instance of the spec's §8 scenario. -/
def scenarioInstance : Instance :=
  [("a", .intScalar 12), ("b", .seq (.floats [89])),
   ("s", .sparse (.floats [12, 20]) [1, 4])]

/-- Concrete wire record of the spec's §8 scenario. -/
def scenarioWire : WireRecord :=
  [("a", .ints [12]), ("b", .floats [89]),
   ("idx", .ints [1, 4]), ("val", .floats [12, 20])]

end Transform

namespace TransformFnIO

open Transform

/-- A coder asset as the persistence layer sees it: a name and an opaque
payload it never interprets (src/tensorflow_transform/beam/io/transform_fn_io.py,
docstrings of `_append_coder_assets`). -/
structure Coder (α : Type) where
  name : String
  payload : α
deriving DecidableEq, Repr

/-- Assignment `d[k] = v` on a Python dict modelled as an insertion-ordered
association list: overwrite in place when the key exists, append otherwise. -/
def dictInsert (d : List (String × α)) (k : String) (v : α) :
    List (String × α) :=
  if d.any (fun p => p.1 = k) then
    d.map fun p => if p.1 = k then (k, v) else p
  else d ++ [(k, v)]

/-- Embedding of `_append_coder_assets` (transform_fn_io.py lines 32–50): it
builds the dict comprehension mapping each coder's name to the coder, then
assigns the first coder of the list under the key "default", and returns the
transform directory path unchanged.  `coders[0]` on an empty list raises, so
the empty case yields no result.  The written dict and the returned path are
the observable effects modelled here. -/
def append_coder_assets (transform_fn_def_dir : String)
    (coders : List (Coder α)) :
    Option (List (String × Coder α) × String) :=
  match coders with
  | [] => none
  | c0 :: _ =>
      let d := coders.foldl (fun d c => dictInsert d c.name c) []
      some (dictInsert d "default" c0, transform_fn_def_dir)

/-- Embedding of `os.path.join(a, b)`: an absolute second component wins;
otherwise the components are joined with a slash unless the first already
ends in one or is empty.  The leading/trailing-slash tests are written on the
character list. -/
def pathJoin (a b : String) : String :=
  if a = "" then b
  else if b.data.head? = some '/' then b
  else if a.data.getLast? = some '/' then a ++ b
  else a ++ "/" ++ b

/-- Observable effect of the copy step of `WriteTransformFn.expand`. -/
inductive CopyAction
  | copied (source : String) (dest : String)
deriving DecidableEq, Repr

/-- Embedding of `safe_copy_tree` (transform_fn_io.py lines 91–94): raises
ValueError("Cannot write a TransformFn to its current location.") when source
equals dest, and otherwise copies source + "/" to dest + "/". -/
def safe_copy_tree (source dest : String) : Except String CopyAction :=
  if source = dest then
    .error "Cannot write a TransformFn to its current location."
  else .ok (.copied (source ++ "/") (dest ++ "/"))

/-- Embedding of the per-element copy performed by `WriteTransformFn.expand`
(transform_fn_io.py lines 98–99): each saved-model directory is passed to
`safe_copy_tree` with destination `os.path.join(path, "transform_fn")`. -/
def writeTransformFn_copy (path saved_model_dir : String) :
    Except String CopyAction :=
  safe_copy_tree saved_model_dir (pathJoin path "transform_fn")

end TransformFnIO

namespace Transform

/-! Helper lemmas about association-list lookup. -/

theorem lookupKey_eq_none (k : String) (l : List (String × α))
    (h : k ∉ l.map Prod.fst) : lookupKey k l = none := by
  induction l with
  | nil => rfl
  | cons p rest ih =>
      simp only [List.map_cons, List.mem_cons, not_or] at h
      simp only [lookupKey]
      rw [if_neg (fun hq => h.1 hq.symm), ih h.2]

theorem lookupKey_isSome_of_mem (k : String) (l : List (String × α))
    (h : k ∈ l.map Prod.fst) : ∃ v, lookupKey k l = some v := by
  induction l with
  | nil => simp at h
  | cons p rest ih =>
      simp only [List.map_cons, List.mem_cons] at h
      simp only [lookupKey]
      by_cases hk : p.1 = k
      · exact ⟨p.2, if_pos hk⟩
      · rw [if_neg hk]
        exact ih (h.resolve_left (fun hq => hk hq.symm))

theorem lookupKey_append (k : String) (l₁ l₂ : List (String × α)) :
    lookupKey k (l₁ ++ l₂) =
      match lookupKey k l₁ with
      | some v => some v
      | none => lookupKey k l₂ := by
  induction l₁ with
  | nil => simp [lookupKey]
  | cons p rest ih =>
      by_cases hk : p.1 = k
      · simp only [List.cons_append, lookupKey, if_pos hk]
      · simp only [List.cons_append, lookupKey, if_neg hk]
        exact ih

theorem lookupKey_append_left (k : String) (l₁ l₂ : List (String × α))
    (h : k ∈ l₁.map Prod.fst) :
    lookupKey k (l₁ ++ l₂) = lookupKey k l₁ := by
  obtain ⟨v, hv⟩ := lookupKey_isSome_of_mem k l₁ h
  rw [lookupKey_append, hv]

theorem lookupKey_append_right (k : String) (l₁ l₂ : List (String × α))
    (h : k ∉ l₁.map Prod.fst) :
    lookupKey k (l₁ ++ l₂) = lookupKey k l₂ := by
  rw [lookupKey_append, lookupKey_eq_none k l₁ h]

/-! Structural lemmas about encode. -/

theorem encodeFeature_keys (name : String) (fs : FeatureSpec) (v : Value)
    (flds : List (String × TypedList))
    (h : encodeFeature name fs v = .ok flds) :
    flds.map Prod.fst = wireNames name fs := by
  cases fs with
  | fixedLen shape d =>
      cases shape with
      | nil =>
          simp only [encodeFeature] at h
          cases hv : encodeScalar d v with
          | ok tl => rw [hv] at h; cases h; rfl
          | error e => rw [hv] at h; cases h
      | cons dim dims =>
          cases v <;> simp only [encodeFeature] at h
          case seq tl =>
            split at h
            · cases h
            · split at h
              · cases h
              · cases h; rfl
          all_goals cases h
  | varLen d =>
      cases v <;> simp only [encodeFeature] at h
      case seq tl =>
        split at h
        · cases h
        · cases h; rfl
      all_goals cases h
  | sparseFeature ik vk d sz =>
      cases v <;> simp only [encodeFeature] at h
      case sparse vals idxs =>
        split at h
        · cases h
        · split at h
          · cases h
          · cases h; rfl
      all_goals cases h

theorem encode_keys (s : Schema) (i : Instance) (b : WireRecord)
    (h : encode s i = .ok b) : b.map Prod.fst = schemaWireNames s := by
  induction s generalizing b with
  | nil => cases h; rfl
  | cons p rest ih =>
      obtain ⟨name, fs⟩ := p
      simp only [encode] at h
      cases hl : lookupKey name i with
      | none =>
          rw [hl] at h
          cases fs with
          | varLen d =>
              simp only at h
              cases ht : encode rest i with
              | ok tail =>
                  rw [ht] at h; simp only at h
                  cases h
                  simp only [List.map_cons, schemaWireNames, wireNames]
                  rw [ih _ ht]; rfl
              | error e => rw [ht] at h; simp only at h; cases h
          | fixedLen shape d => simp only at h; cases h
          | sparseFeature ik vk d sz => simp only at h; cases h
      | some v =>
          rw [hl] at h; simp only at h
          cases hf : encodeFeature name fs v with
          | ok flds =>
              rw [hf] at h; simp only at h
              cases ht : encode rest i with
              | ok tail =>
                  rw [ht] at h; simp only at h
                  cases h
                  simp only [schemaWireNames, List.map_append]
                  rw [encodeFeature_keys _ _ _ _ hf, ih _ ht]
              | error e => rw [ht] at h; simp only at h; cases h
          | error e => rw [hf] at h; simp only at h; cases h

/-! Frame lemmas: a feature's decode reads only its own wire fields. -/

theorem decodeFeature_congr (name : String) (fs : FeatureSpec)
    (r₁ r₂ : WireRecord)
    (h : ∀ k ∈ wireNames name fs, lookupKey k r₁ = lookupKey k r₂) :
    decodeFeature name fs r₁ = decodeFeature name fs r₂ := by
  cases fs with
  | fixedLen shape d =>
      have hn : lookupKey name r₁ = lookupKey name r₂ := by
        apply h; simp [wireNames]
      simp only [decodeFeature, getField, hn]
  | varLen d =>
      have hn : lookupKey name r₁ = lookupKey name r₂ := by
        apply h; simp [wireNames]
      simp only [decodeFeature, getField, hn]
  | sparseFeature ik vk d sz =>
      have hik : lookupKey ik r₁ = lookupKey ik r₂ := by
        apply h; simp [wireNames]
      have hvk : lookupKey vk r₁ = lookupKey vk r₂ := by
        apply h; simp [wireNames]
      simp only [decodeFeature, getField, hik, hvk]

theorem decode_congr (s : Schema) (r₁ r₂ : WireRecord)
    (h : ∀ k ∈ schemaWireNames s, lookupKey k r₁ = lookupKey k r₂) :
    decode s r₁ = decode s r₂ := by
  induction s with
  | nil => rfl
  | cons p rest ih =>
      obtain ⟨name, fs⟩ := p
      have h₁ : ∀ k ∈ wireNames name fs, lookupKey k r₁ = lookupKey k r₂ := by
        intro k hk
        exact h k (by simp [schemaWireNames, hk])
      have h₂ : ∀ k ∈ schemaWireNames rest, lookupKey k r₁ = lookupKey k r₂ := by
        intro k hk
        exact h k (by simp [schemaWireNames, hk])
      simp only [decode, decodeFeature_congr name fs r₁ r₂ h₁, ih h₂]

theorem encode_congr (s : Schema) (i₁ i₂ : Instance)
    (h : ∀ p ∈ s, lookupKey p.1 i₁ = lookupKey p.1 i₂) :
    encode s i₁ = encode s i₂ := by
  induction s with
  | nil => rfl
  | cons p rest ih =>
      obtain ⟨name, fs⟩ := p
      have hn : lookupKey name i₁ = lookupKey name i₂ :=
        h (name, fs) (List.mem_cons_self _ _)
      have hr : ∀ p ∈ rest, lookupKey p.1 i₁ = lookupKey p.1 i₂ :=
        fun p hp => h p (List.mem_cons_of_mem _ hp)
      simp only [encode, hn, ih hr]

/-! Per-feature round-trip lemmas. -/

theorem encodeFeature_then_decode (name : String) (fs : FeatureSpec) (v : Value)
    (hnod : (wireNames name fs).Nodup)
    (hconf : valueConforms fs v = true) :
    ∃ flds, encodeFeature name fs v = .ok flds ∧
      decodeFeature name fs flds = .ok v := by
  cases fs with
  | fixedLen shape d =>
      cases shape with
      | nil =>
          cases d <;> cases v <;> simp [valueConforms] at hconf <;>
            exact ⟨_, rfl,
              by simp [decodeFeature, getField, lookupKey, decodeScalar,
                TypedList.dtype]⟩
      | cons dim dims =>
          cases v <;> simp only [valueConforms] at hconf
          case seq tl =>
            simp only [Bool.and_eq_true, decide_eq_true_eq] at hconf
            obtain ⟨hd, hl⟩ := hconf
            refine ⟨[(name, tl)], ?_, ?_⟩
            · simp [encodeFeature, hd, hl]
            · by_cases hz : shapeProd (dim :: dims) = 0 <;>
                simp [decodeFeature, getField, lookupKey, hd, hl, hz]
          all_goals cases hconf
  | varLen d =>
      cases v <;> simp only [valueConforms] at hconf
      case seq tl =>
        simp only [decide_eq_true_eq] at hconf
        exact ⟨[(name, tl)], by simp [encodeFeature, hconf],
          by simp [decodeFeature, getField, lookupKey, hconf]⟩
      all_goals cases hconf
  | sparseFeature ik vk d sz =>
      have hne : ik ≠ vk := by
        simp only [wireNames, List.nodup_cons, List.mem_singleton] at hnod
        exact hnod.1
      cases v <;> simp only [valueConforms] at hconf
      case sparse vals idxs =>
        simp only [Bool.and_eq_true, decide_eq_true_eq] at hconf
        obtain ⟨hd, hl⟩ := hconf
        refine ⟨[(ik, .ints idxs), (vk, vals)], ?_, ?_⟩
        · simp [encodeFeature, hd, hl]
        · simp [decodeFeature, getField, lookupKey, TypedList.asInts, hne,
            hd, hl]
      all_goals cases hconf

theorem decodeScalar_inv (d : DType) (tl : TypedList) (v : Value)
    (hdt : tl.dtype = d) (h : decodeScalar tl = .ok v) :
    encodeScalar d v = .ok tl := by
  subst hdt
  cases tl with
  | ints l =>
      cases l with
      | nil => simp [decodeScalar] at h
      | cons a t =>
          cases t with
          | nil =>
              simp only [decodeScalar] at h
              cases h
              simp [encodeScalar, TypedList.dtype]
          | cons b t2 => simp [decodeScalar] at h
  | floats l =>
      cases l with
      | nil => simp [decodeScalar] at h
      | cons a t =>
          cases t with
          | nil =>
              simp only [decodeScalar] at h
              cases h
              simp [encodeScalar, TypedList.dtype]
          | cons b t2 => simp [decodeScalar] at h
  | strs l =>
      cases l with
      | nil => simp [decodeScalar] at h
      | cons a t =>
          cases t with
          | nil =>
              simp only [decodeScalar] at h
              cases h
              simp [encodeScalar, TypedList.dtype]
          | cons b t2 => simp [decodeScalar] at h

theorem decodeFeature_then_encode (name : String) (fs : FeatureSpec)
    (r : WireRecord) (v : Value)
    (hnod : (wireNames name fs).Nodup)
    (h : decodeFeature name fs r = .ok v) :
    ∃ flds, encodeFeature name fs v = .ok flds ∧
      flds.map Prod.fst = wireNames name fs ∧
      ∀ k ∈ wireNames name fs,
        lookupKey k flds = some (getField r k (featureWireDType fs k)) := by
  cases fs with
  | fixedLen shape d =>
      cases shape with
      | nil =>
          simp only [decodeFeature] at h
          split at h
          · cases h
          · next hdt =>
            rw [Decidable.not_not] at hdt
            refine ⟨[(name, getField r name d)], ?_, by simp [wireNames], ?_⟩
            · simp [encodeFeature, decodeScalar_inv d _ v hdt h]
            · intro k hk
              simp only [wireNames, List.mem_singleton] at hk
              subst hk
              simp [lookupKey, featureWireDType]
      | cons dim dims =>
          simp only [decodeFeature] at h
          split at h
          · cases h
          · next hdt =>
            rw [Decidable.not_not] at hdt
            have hv : v = .seq (getField r name d) := by
              split at h
              · cases h; rfl
              · split at h
                · cases h; rfl
                · cases h
            have hlen : shapeProd (dim :: dims) = 0 ∨
                (getField r name d).len = shapeProd (dim :: dims) := by
              split at h
              · left; assumption
              · split at h
                · right; assumption
                · cases h
            subst hv
            refine ⟨[(name, getField r name d)], ?_, by simp [wireNames], ?_⟩
            · rcases hlen with hz | hl
              · simp [encodeFeature, hdt, hz]
              · simp [encodeFeature, hdt, hl]
            · intro k hk
              simp only [wireNames, List.mem_singleton] at hk
              subst hk
              simp [lookupKey, featureWireDType]
  | varLen d =>
      simp only [decodeFeature] at h
      split at h
      · cases h
      · next hdt =>
        rw [Decidable.not_not] at hdt
        cases h
        refine ⟨[(name, getField r name d)], by simp [encodeFeature, hdt],
          by simp [wireNames], ?_⟩
        intro k hk
        simp only [wireNames, List.mem_singleton] at hk
        subst hk
        simp [lookupKey, featureWireDType]
  | sparseFeature ik vk d sz =>
      have hne : ik ≠ vk := by
        simp only [wireNames, List.nodup_cons, List.mem_singleton] at hnod
        exact hnod.1
      simp only [decodeFeature] at h
      cases hidx : (getField r ik .int).asInts with
      | none => rw [hidx] at h; cases h
      | some idxs =>
          rw [hidx] at h
          simp only at h
          split at h
          · cases h
          · next hdt =>
            rw [Decidable.not_not] at hdt
            split at h
            · next hlen =>
              cases h
              have hgik : getField r ik .int = .ints idxs := by
                cases hg : getField r ik .int with
                | ints l =>
                    rw [hg] at hidx
                    simp only [TypedList.asInts, Option.some.injEq] at hidx
                    rw [hidx]
                | floats l => rw [hg] at hidx; simp [TypedList.asInts] at hidx
                | strs l => rw [hg] at hidx; simp [TypedList.asInts] at hidx
              refine ⟨[(ik, .ints idxs), (vk, getField r vk d)], ?_,
                by simp [wireNames], ?_⟩
              · simp [encodeFeature, hdt, hlen]
              · intro k hk
                simp only [wireNames, List.mem_cons, List.not_mem_nil,
                  or_false] at hk
                rcases hk with hk | hk
                · subst hk
                  simp [lookupKey, featureWireDType, hgik]
                · subst hk
                  simp [lookupKey, featureWireDType, hne]
            · cases h

theorem wireDTypeOf_skip (name : String) (fs : FeatureSpec) (rest : Schema)
    (k : String) (h : k ∉ wireNames name fs) :
    wireDTypeOf ((name, fs) :: rest) k = wireDTypeOf rest k := by
  cases fs with
  | fixedLen shape d =>
      simp only [wireNames, List.mem_singleton] at h
      simp only [wireDTypeOf]
      rw [if_neg (fun hq : name = k => h hq.symm)]
  | varLen d =>
      simp only [wireNames, List.mem_singleton] at h
      simp only [wireDTypeOf]
      rw [if_neg (fun hq : name = k => h hq.symm)]
  | sparseFeature ik vk d sz =>
      simp only [wireNames, List.mem_cons, List.not_mem_nil, or_false,
        not_or] at h
      simp only [wireDTypeOf]
      rw [if_neg (fun hq : ik = k => h.1 hq.symm),
        if_neg (fun hq : vk = k => h.2 hq.symm)]

theorem wireDTypeOf_head (name : String) (fs : FeatureSpec) (rest : Schema)
    (k : String) (hk : k ∈ wireNames name fs)
    (hnod : (wireNames name fs).Nodup) :
    wireDTypeOf ((name, fs) :: rest) k = some (featureWireDType fs k) := by
  cases fs with
  | fixedLen shape d =>
      simp only [wireNames, List.mem_singleton] at hk
      subst hk
      simp [wireDTypeOf, featureWireDType]
  | varLen d =>
      simp only [wireNames, List.mem_singleton] at hk
      subst hk
      simp [wireDTypeOf, featureWireDType]
  | sparseFeature ik vk d sz =>
      have hne : ik ≠ vk := by
        simp only [wireNames, List.nodup_cons, List.mem_singleton] at hnod
        exact hnod.1
      simp only [wireNames, List.mem_cons, List.not_mem_nil, or_false] at hk
      rcases hk with hk | hk
      · subst hk
        simp [wireDTypeOf, featureWireDType]
      · subst hk
        simp [wireDTypeOf, featureWireDType, hne]

/-! Round-trip theorems, stated per claim further below, are derived from the
following two schema-level inductions. -/

theorem encode_decode_core (s : Schema) (i : Instance)
    (hwf : wellFormed s) (hconf : instanceConforms s i = true) :
    ∃ b i2, encode s i = .ok b ∧ decode s b = .ok i2 ∧
      ∀ p ∈ s, lookupKey p.1 i2 = lookupKey p.1 i := by
  induction s with
  | nil => exact ⟨[], [], rfl, rfl, by simp⟩
  | cons p rest ih =>
      obtain ⟨name, fs⟩ := p
      obtain ⟨hfn, hwn⟩ := hwf
      simp only [List.map_cons, List.nodup_cons] at hfn
      rw [schemaWireNames, List.nodup_append] at hwn
      obtain ⟨hwn₁, hwn₂, hdisj⟩ := hwn
      simp only [instanceConforms, List.all_cons, Bool.and_eq_true] at hconf
      obtain ⟨hcv, hcrest⟩ := hconf
      cases hl : lookupKey name i with
      | none => rw [hl] at hcv; cases hcv
      | some v =>
          rw [hl] at hcv
          obtain ⟨b2, i2, hb2, hi2, hlk⟩ := ih ⟨hfn.2, hwn₂⟩ hcrest
          obtain ⟨flds, hf, hdf⟩ := encodeFeature_then_decode name fs v hwn₁ hcv
          have hkeys := encodeFeature_keys name fs v flds hf
          refine ⟨flds ++ b2, (name, v) :: i2, ?_, ?_, ?_⟩
          · simp only [encode, hl, hf, hb2]
          · have hdec₁ : decodeFeature name fs (flds ++ b2) = .ok v := by
              rw [decodeFeature_congr name fs (flds ++ b2) flds ?_, hdf]
              intro k hk
              exact lookupKey_append_left k flds b2 (hkeys ▸ hk)
            have hdec₂ : decode rest (flds ++ b2) = .ok i2 := by
              rw [decode_congr rest (flds ++ b2) b2 ?_, hi2]
              intro k hk
              refine lookupKey_append_right k flds b2 ?_
              rw [hkeys]
              exact fun hmem => hdisj hmem hk
            simp only [decode, hdec₁, hdec₂]
          · intro q hq
            rcases List.mem_cons.mp hq with hq | hq
            · rw [hq]
              simp [lookupKey, hl]
            · have hq1 : q.1 ≠ name := by
                intro he
                exact hfn.1 (he ▸ List.mem_map_of_mem Prod.fst hq)
              have hstep : lookupKey q.1 ((name, v) :: i2) = lookupKey q.1 i2 := by
                simp only [lookupKey]
                rw [if_neg (fun he : name = q.1 => hq1 he.symm)]
              rw [hstep]
              exact hlk q hq

theorem decode_then_encode_core (s : Schema) (b : WireRecord) (i : Instance)
    (hwf : wellFormed s) (h : decode s b = .ok i) :
    ∃ b2, encode s i = .ok b2 ∧
      ∀ k ∈ schemaWireNames s, ∃ d, wireDTypeOf s k = some d ∧
        lookupKey k b2 = some (getField b k d) := by
  induction s generalizing i with
  | nil => cases h; exact ⟨[], rfl, by simp [schemaWireNames]⟩
  | cons p rest ih =>
      obtain ⟨name, fs⟩ := p
      obtain ⟨hfn, hwn⟩ := hwf
      simp only [List.map_cons, List.nodup_cons] at hfn
      rw [schemaWireNames, List.nodup_append] at hwn
      obtain ⟨hwn₁, hwn₂, hdisj⟩ := hwn
      simp only [decode] at h
      cases hdf : decodeFeature name fs b with
      | error e => rw [hdf] at h; simp only at h; cases h
      | ok v =>
          rw [hdf] at h
          simp only at h
          cases hdc : decode rest b with
          | error e => rw [hdc] at h; simp only at h; cases h
          | ok tail =>
              rw [hdc] at h
              simp only at h
              cases h
              obtain ⟨flds, hf, hkeys, hflk⟩ :=
                decodeFeature_then_encode name fs b v hwn₁ hdf
              obtain ⟨b2, hb2, hb2lk⟩ := ih tail ⟨hfn.2, hwn₂⟩ hdc
              have hcong : encode rest ((name, v) :: tail) = encode rest tail := by
                apply encode_congr
                intro q hq
                have hq1 : q.1 ≠ name := by
                  intro he
                  exact hfn.1 (he ▸ List.mem_map_of_mem Prod.fst hq)
                simp only [lookupKey]
                rw [if_neg (fun he : name = q.1 => hq1 he.symm)]
              refine ⟨flds ++ b2, ?_, ?_⟩
              · have hlkv : lookupKey name ((name, v) :: tail) = some v := by
                  simp [lookupKey]
                simp only [encode, hlkv, hf, hcong, hb2]
              · intro k hk
                rw [schemaWireNames, List.mem_append] at hk
                rcases hk with hk | hk
                · refine ⟨featureWireDType fs k, ?_, ?_⟩
                  · exact wireDTypeOf_head name fs rest k hk hwn₁
                  · rw [lookupKey_append_left k flds b2 (hkeys ▸ hk)]
                    exact hflk k hk
                · have hnotin : k ∉ wireNames name fs :=
                    fun hm => hdisj hm hk
                  obtain ⟨d, hd, hl⟩ := hb2lk k hk
                  refine ⟨d, ?_, ?_⟩
                  · rw [wireDTypeOf_skip name fs rest k hnotin]
                    exact hd
                  · rw [lookupKey_append_right k flds b2 (hkeys ▸ hnotin)]
                    exact hl

theorem emptyOf_dtype (d : DType) : (TypedList.emptyOf d).dtype = d := by
  cases d <;> rfl

theorem decode_names (s : Schema) (r : WireRecord) (i : Instance)
    (h : decode s r = .ok i) : i.map Prod.fst = s.map Prod.fst := by
  induction s generalizing i with
  | nil => cases h; rfl
  | cons p rest ih =>
      obtain ⟨name, fs⟩ := p
      simp only [decode] at h
      cases hdf : decodeFeature name fs r with
      | error e => rw [hdf] at h; simp only at h; cases h
      | ok v =>
          rw [hdf] at h
          simp only at h
          cases hdc : decode rest r with
          | error e => rw [hdc] at h; simp only at h; cases h
          | ok tail =>
              rw [hdc] at h
              simp only at h
              cases h
              simp only [List.map_cons]
              rw [ih tail hdc]

theorem encodeCall_fst (c : Codec) (i : Instance) :
    (c.encodeCall i).1 = encode c.schema i := by
  unfold Codec.encodeCall
  cases encode c.schema i <;> rfl

theorem encodeCall_schema (c : Codec) (i : Instance) :
    (c.encodeCall i).2.schema = c.schema := by
  unfold Codec.encodeCall
  cases encode c.schema i <;> rfl

theorem decodeCall_fst (c : Codec) (b : WireRecord) :
    (c.decodeCall b).1 = decode c.schema b := by
  unfold Codec.decodeCall
  cases decode c.schema b <;> rfl

theorem decodeCall_schema (c : Codec) (b : WireRecord) :
    (c.decodeCall b).2.schema = c.schema := by
  unfold Codec.decodeCall
  cases decode c.schema b <;> rfl

end Transform

namespace TransformFnIO

/-! Lemmas about the persistence layer's dict construction. -/

theorem dictInsert_append (d : List (String × α)) (k : String) (v : α)
    (h : k ∉ d.map Prod.fst) : dictInsert d k v = d ++ [(k, v)] := by
  unfold dictInsert
  rw [if_neg]
  intro hany
  obtain ⟨p, hp, he⟩ := List.any_eq_true.mp hany
  exact h (of_decide_eq_true he ▸ List.mem_map_of_mem Prod.fst hp)

theorem coderFold_eq_map (coders : List (Coder α))
    (acc : List (String × Coder α))
    (hnod : (coders.map Coder.name).Nodup)
    (hdisj : ∀ c ∈ coders, c.name ∉ acc.map Prod.fst) :
    coders.foldl (fun d c => dictInsert d c.name c) acc =
      acc ++ coders.map (fun c => (c.name, c)) := by
  induction coders generalizing acc with
  | nil => simp
  | cons c rest ih =>
      simp only [List.map_cons, List.nodup_cons] at hnod
      have hc : c.name ∉ acc.map Prod.fst :=
        hdisj c (List.mem_cons_self _ _)
      rw [List.foldl_cons, dictInsert_append acc c.name c hc,
        ih (acc ++ [(c.name, c)]) hnod.2 ?_]
      · simp
      · intro c2 hc2
        simp only [List.map_append, List.mem_append, List.map_cons,
          List.map_nil, List.mem_singleton, not_or]
        refine ⟨hdisj c2 (List.mem_cons_of_mem _ hc2), ?_⟩
        intro he
        exact hnod.1 (he ▸ List.mem_map_of_mem Coder.name hc2)

theorem lookupKey_map_self (coders : List (Coder α)) (c : Coder α)
    (hnod : (coders.map Coder.name).Nodup) (hc : c ∈ coders) :
    Transform.lookupKey c.name (coders.map fun c2 => (c2.name, c2)) = some c := by
  induction coders with
  | nil => cases hc
  | cons c1 rest ih =>
      simp only [List.map_cons, List.nodup_cons] at hnod
      rcases List.mem_cons.mp hc with hc | hc
      · subst hc
        simp [Transform.lookupKey]
      · have hne : c1.name ≠ c.name := by
          intro he
          exact hnod.1 (he ▸ List.mem_map_of_mem Coder.name hc)
        simp only [List.map_cons, Transform.lookupKey]
        rw [if_neg hne]
        exact ih hnod.2 hc

end TransformFnIO

namespace Transform

/-- C1: for every wire-bytes value b (modelled by its parsed wire record)
conforming to the schema, encode(decode(b)) parses to a wire record logically
equal to the one parsed from b: every wire field of the schema holds the same
typed list of values (an absent field standing for the empty list of its
declared dtype), though field order may differ. -/
theorem claim_wire_roundtrip (s : Schema) (b : WireRecord)
    (hwf : wellFormed s) (hc : wireConforms s b) :
    ∃ i b2, decode s b = .ok i ∧ encode s i = .ok b2 ∧ wireEquiv s b b2 := by
  obtain ⟨hnod, hsub, i, hdec⟩ := hc
  obtain ⟨b2, henc, hlk⟩ := decode_then_encode_core s b i hwf hdec
  refine ⟨i, b2, hdec, henc, ?_⟩
  intro k hk
  obtain ⟨d, hd, hl⟩ := hlk k hk
  have h2 : effField s b2 k = some (getField b k d) := by
    unfold effField
    rw [hl]
  have h1 : effField s b k = some (getField b k d) := by
    unfold effField
    cases hg : lookupKey k b with
    | some tl => simp [getField, hg]
    | none => simp [getField, hg, hd]
  rw [h1, h2]

/-- Witness for C1 at the spec's §8 concrete scenario. -/
theorem claim_wire_roundtrip_witness :
    ∃ i b2, decode scenarioSchema scenarioWire = .ok i ∧
      encode scenarioSchema i = .ok b2 ∧
      wireEquiv scenarioSchema scenarioWire b2 :=
  claim_wire_roundtrip scenarioSchema scenarioWire (by decide)
    ⟨by decide, by decide, ⟨scenarioInstance, rfl⟩⟩

/-- C2: for every instance i conforming to the schema (every logical feature
present with a value matching its FeatureSpec), decode(encode(i)) succeeds and
is logically equal to i, feature by feature. -/
theorem claim_instance_roundtrip (s : Schema) (i : Instance)
    (hwf : wellFormed s) (hconf : instanceConforms s i = true) :
    ∃ b i2, encode s i = .ok b ∧ decode s b = .ok i2 ∧
      ∀ p ∈ s, lookupKey p.1 i2 = lookupKey p.1 i :=
  encode_decode_core s i hwf hconf

/-- Witness for C2 at the spec's §8 concrete scenario. -/
theorem claim_instance_roundtrip_witness :
    ∃ b i2, encode scenarioSchema scenarioInstance = .ok b ∧
      decode scenarioSchema b = .ok i2 ∧
      ∀ p ∈ scenarioSchema,
        lookupKey p.1 i2 = lookupKey p.1 scenarioInstance :=
  claim_instance_roundtrip scenarioSchema scenarioInstance (by decide)
    (by decide)

/-- C3: reconstructing a Codec from its serialized form — from any state,
including one reached after arbitrary encode/decode calls — yields a Codec
whose encode and decode agree with the original on every input, and repeating
the same call twice from the reconstructed Codec gives identical results both
times (no stale scratch state carried over). -/
theorem claim_codec_relocation (c : Codec) (i : Instance) (b : WireRecord) :
    ((Codec.reconstructCodec (Codec.serializeCodec c)).encodeCall i).1 =
      (c.encodeCall i).1 ∧
    ((Codec.reconstructCodec (Codec.serializeCodec c)).decodeCall b).1 =
      (c.decodeCall b).1 ∧
    (((Codec.reconstructCodec (Codec.serializeCodec c)).encodeCall i).2.encodeCall i).1 =
      ((Codec.reconstructCodec (Codec.serializeCodec c)).encodeCall i).1 ∧
    (((Codec.reconstructCodec (Codec.serializeCodec c)).decodeCall b).2.decodeCall b).1 =
      ((Codec.reconstructCodec (Codec.serializeCodec c)).decodeCall b).1 := by
  refine ⟨?_, ?_, ?_, ?_⟩ <;>
    simp [encodeCall_fst, decodeCall_fst, encodeCall_schema,
      decodeCall_schema, Codec.reconstructCodec, Codec.serializeCodec,
      Codec.ofSchema]

/-- C4: for every FixedLen or VarLen feature and every logical value, encoding
the value supplied as a plain scalar/sequence and encoding it supplied as an
equal-valued fixed-width numeric-array representation (any element width)
produce the same wire fields, and hence byte-identical serialized wire
output. -/
theorem claim_dual_representation (name : String) (fs : FeatureSpec)
    (v : Value) (w : Nat) (_hfs : fs.isDense = true) :
    encodeFeatureRaw name fs (.array w v) =
      encodeFeatureRaw name fs (.plain v) ∧
    ∀ f1 f2, encodeFeatureRaw name fs (.array w v) = .ok f1 →
      encodeFeatureRaw name fs (.plain v) = .ok f2 →
      serializeWire f1 = serializeWire f2 := by
  refine ⟨rfl, ?_⟩
  intro f1 f2 h1 h2
  have he : Except.ok (ε := CodecError) f1 = Except.ok f2 := h1.symm.trans h2
  cases he
  rfl

/-- Witness for C4 at a VarLen float feature holding [89.0]. -/
theorem claim_dual_representation_witness :
    encodeFeatureRaw "b" (.varLen .float) (.array 64 (.seq (.floats [89]))) =
      encodeFeatureRaw "b" (.varLen .float) (.plain (.seq (.floats [89]))) :=
  (claim_dual_representation "b" (.varLen .float) (.seq (.floats [89])) 64
    (by decide)).1

/-- C5: for a SparseFeature with index_key "idx" and value_key "value",
encoding the instance value (values=[12.0, 20.0], indices=[1, 4]) places the
integer list [1, 4] under wire field "idx" and the float list [12.0, 20.0]
under wire field "value", and decoding that wire record returns exactly the
pair ([12.0, 20.0], [1, 4]) for the logical sparse feature. -/
theorem claim_sparse_fan_out_fan_in :
    encode [("sparse_feature", .sparseFeature "idx" "value" .float 10)]
        [("sparse_feature", .sparse (.floats [12, 20]) [1, 4])] =
      .ok [("idx", .ints [1, 4]), ("value", .floats [12, 20])] ∧
    decode [("sparse_feature", .sparseFeature "idx" "value" .float 10)]
        [("idx", .ints [1, 4]), ("value", .floats [12, 20])] =
      .ok [("sparse_feature", .sparse (.floats [12, 20]) [1, 4])] :=
  ⟨rfl, rfl⟩

theorem decodeScalar_ok_len (tl : TypedList) (v : Value)
    (h : decodeScalar tl = .ok v) : Value.len v = 1 := by
  cases tl with
  | ints l =>
      cases l with
      | nil => cases h
      | cons a t =>
          cases t with
          | nil => cases h; rfl
          | cons b t2 => cases h
  | floats l =>
      cases l with
      | nil => cases h
      | cons a t =>
          cases t with
          | nil => cases h; rfl
          | cons b t2 => cases h
  | strs l =>
      cases l with
      | nil => cases h
      | cons a t =>
          cases t with
          | nil => cases h; rfl
          | cons b t2 => cases h

theorem decodeScalar_len_error (tl : TypedList) (h : tl.len ≠ 1) :
    decodeScalar tl = .error (.malformedRecord "feature length mismatch") := by
  cases tl with
  | ints l =>
      cases l with
      | nil => rfl
      | cons a t =>
          cases t with
          | nil => exact absurd rfl h
          | cons b t2 => rfl
  | floats l =>
      cases l with
      | nil => rfl
      | cons a t =>
          cases t with
          | nil => exact absurd rfl h
          | cons b t2 => rfl
  | strs l =>
      cases l with
      | nil => rfl
      | cons a t =>
          cases t with
          | nil => exact absurd rfl h
          | cons b t2 => rfl

/-- C6: for a FixedLen feature with shape [], decode maps a one-element wire
list to a bare typed scalar (not a one-element sequence), and encode maps that
bare scalar back to the same one-element wire list. -/
theorem claim_scalar_shape_collapse (name : String) (d : DType)
    (tl : TypedList) (r : WireRecord) (hdt : tl.dtype = d)
    (hlen : tl.len = 1) (hlk : lookupKey name r = some tl) :
    ∃ v, decodeFeature name (.fixedLen [] d) r = .ok v ∧
      v.isScalar = true ∧
      encodeFeature name (.fixedLen [] d) v = .ok [(name, tl)] := by
  have hg : getField r name d = tl := by simp [getField, hlk]
  have hdec : ∃ v, decodeScalar tl = .ok v ∧ v.isScalar = true := by
    cases tl with
    | ints l =>
        cases l with
        | nil => simp [TypedList.len] at hlen
        | cons a t =>
            cases t with
            | nil => exact ⟨_, rfl, rfl⟩
            | cons b t2 => simp [TypedList.len] at hlen
    | floats l =>
        cases l with
        | nil => simp [TypedList.len] at hlen
        | cons a t =>
            cases t with
            | nil => exact ⟨_, rfl, rfl⟩
            | cons b t2 => simp [TypedList.len] at hlen
    | strs l =>
        cases l with
        | nil => simp [TypedList.len] at hlen
        | cons a t =>
            cases t with
            | nil => exact ⟨_, rfl, rfl⟩
            | cons b t2 => simp [TypedList.len] at hlen
  obtain ⟨v, hv, hs⟩ := hdec
  refine ⟨v, ?_, hs, ?_⟩
  · simp [decodeFeature, hg, hdt, hv]
  · have hinv := decodeScalar_inv d tl v hdt hv
    simp [encodeFeature, hinv]

/-- Witness for C6 at the test's scalar integer feature holding 12. -/
theorem claim_scalar_shape_collapse_witness :
    ∃ v, decodeFeature "scalar_feature_1" (.fixedLen [] .int)
        [("scalar_feature_1", .ints [12])] = .ok v ∧
      v.isScalar = true ∧
      encodeFeature "scalar_feature_1" (.fixedLen [] .int) v =
        .ok [("scalar_feature_1", .ints [12])] :=
  claim_scalar_shape_collapse "scalar_feature_1" .int (.ints [12])
    [("scalar_feature_1", .ints [12])] (by decide) (by decide) rfl

/-- C7 counterexample: decoding the repository test's shape=[0] byte-string
feature from a one-element wire list succeeds and returns the one-element
sequence, although product(shape) is zero — so decode does not fail when the
decoded length differs from product(shape), and a shape=[0] feature accepts
more than zero-length wire values. -/
theorem claim_fixedlen_lengthcheck_counterexample :
    decodeFeature "1d_vector_feature" (.fixedLen [0] .bytes)
        [("1d_vector_feature", .strs ["this is a ,text"])] =
      .ok (.seq (.strs ["this is a ,text"])) ∧
    shapeProd [0] = 0 ∧
    Value.len (.seq (.strs ["this is a ,text"])) = 1 :=
  ⟨rfl, rfl, rfl⟩

/-- C7 amended: during decode, for every FixedLen feature whose shape has
nonzero product the decoded value's length equals product(shape), and decode
fails with MalformedRecordError ("feature length mismatch") when the wire list
has the declared variant but a mismatched length; a FixedLen feature declared
with shape=[0] (product of shape equal to zero) instead accepts a wire value
of any length and returns it unchanged, as exercised by the repository's
test. -/
theorem claim_fixedlen_lengthcheck_amended (shape : List Nat) (d : DType)
    (name : String) (r : WireRecord) :
    (shapeProd shape ≠ 0 → ∀ v,
      decodeFeature name (.fixedLen shape d) r = .ok v →
      Value.len v = shapeProd shape) ∧
    (shapeProd shape ≠ 0 → (getField r name d).dtype = d →
      (getField r name d).len ≠ shapeProd shape →
      decodeFeature name (.fixedLen shape d) r =
        .error (.malformedRecord "feature length mismatch")) ∧
    (shapeProd shape = 0 → (getField r name d).dtype = d →
      decodeFeature name (.fixedLen shape d) r =
        .ok (.seq (getField r name d))) := by
  refine ⟨?_, ?_, ?_⟩
  · intro hnz v h
    simp only [decodeFeature] at h
    split at h
    · cases h
    · cases shape with
      | nil => rw [decodeScalar_ok_len _ v h]; rfl
      | cons dim dims =>
          simp only at h
          by_cases hl : (getField r name d).len = shapeProd (dim :: dims)
          · rw [if_pos hl] at h
            cases h
            exact hl
          · rw [if_neg hl] at h
            cases h
  · intro hnz hdt hlen
    cases shape with
    | nil =>
        simp only [decodeFeature]
        rw [if_neg (fun hq : _ ≠ d => hq hdt)]
        exact decodeScalar_len_error _ hlen
    | cons dim dims =>
        simp only [decodeFeature]
        rw [if_neg (fun hq : _ ≠ d => hq hdt)]
        simp only [if_neg hnz, if_neg hlen]
  · intro hz hdt
    cases shape with
    | nil => simp [shapeProd] at hz
    | cons dim dims =>
        simp only [decodeFeature]
        rw [if_neg (fun hq : _ ≠ d => hq hdt), if_pos hz]

/-- Witness for C7's amended claim: a length-respecting decode for shape [2],
a length-mismatch error for shape [2], a length-mismatch error for the scalar
shape [], and a length-1 decode accepted for shape [0]. -/
theorem claim_fixedlen_lengthcheck_amended_witness :
    Value.len (.seq (.ints [7, 8])) = shapeProd [2] ∧
    decodeFeature "f" (.fixedLen [2] .int) [("f", .ints [7])] =
      .error (.malformedRecord "feature length mismatch") ∧
    decodeFeature "h" (.fixedLen [] .int) [("h", .ints [])] =
      .error (.malformedRecord "feature length mismatch") ∧
    decodeFeature "g" (.fixedLen [0] .int) [("g", .ints [5])] =
      .ok (.seq (.ints [5])) :=
  ⟨(claim_fixedlen_lengthcheck_amended [2] .int "f"
      [("f", .ints [7, 8])]).1 (by decide) (.seq (.ints [7, 8])) rfl,
   (claim_fixedlen_lengthcheck_amended [2] .int "f"
      [("f", .ints [7])]).2.1 (by decide) (by decide) (by decide),
   (claim_fixedlen_lengthcheck_amended [] .int "h"
      [("h", .ints [])]).2.1 (by decide) (by decide) (by decide),
   (claim_fixedlen_lengthcheck_amended [0] .int "g"
      [("g", .ints [5])]).2.2 (by decide) (by decide)⟩

/-- C8: for every VarLen feature, decoding a wire record in which that
feature's wire field is absent or present as an empty list succeeds and yields
the empty sequence for that feature, never an error, and after a successful
decode the feature's name is present in the returned instance mapping. -/
theorem claim_varlen_empty_default (s : Schema) (name : String) (d : DType)
    (r : WireRecord) (i : Instance)
    (hmem : (name, FeatureSpec.varLen d) ∈ s)
    (habs : lookupKey name r = none ∨
      lookupKey name r = some (TypedList.emptyOf d)) :
    decodeFeature name (.varLen d) r = .ok (.seq (TypedList.emptyOf d)) ∧
    (decode s r = .ok i → name ∈ i.map Prod.fst) := by
  constructor
  · have hg : getField r name d = TypedList.emptyOf d := by
      rcases habs with h | h <;> simp [getField, h]
    simp [decodeFeature, hg, emptyOf_dtype]
  · intro hdec
    rw [decode_names s r i hdec]
    exact List.mem_map_of_mem Prod.fst hmem

/-- Witness for C8 at the §8 schema with the VarLen field "b" absent. -/
theorem claim_varlen_empty_default_witness :
    decodeFeature "b" (.varLen .float) [("a", TypedList.ints [12])] =
      .ok (.seq (TypedList.emptyOf .float)) ∧
    (decode scenarioSchema [("a", TypedList.ints [12])] =
        .ok [("a", Value.intScalar 12), ("b", .seq (.floats [])),
          ("s", .sparse (.floats []) [])] →
      "b" ∈ ([("a", Value.intScalar 12), ("b", Value.seq (.floats [])),
          ("s", Value.sparse (.floats []) [])] : Instance).map Prod.fst) :=
  claim_varlen_empty_default scenarioSchema "b" .float
    [("a", TypedList.ints [12])]
    [("a", Value.intScalar 12), ("b", .seq (.floats [])),
      ("s", .sparse (.floats []) [])]
    (by decide) (Or.inl rfl)

end Transform

namespace TransformFnIO

open Transform

/-- C9 counterexample: appending the non-empty list of two distinct coders
that share the name "a" writes a mapping in which "a" holds only the second
coder, so the first coder is not contained in the mapping under its own name,
contradicting the claim for this input. -/
theorem claim_append_coder_assets_counterexample :
    append_coder_assets "dir" [(⟨"a", 0⟩ : Coder Nat), ⟨"a", 1⟩] =
      some ([("a", ⟨"a", 1⟩), ("default", ⟨"a", 0⟩)], "dir") ∧
    lookupKey "a" [("a", (⟨"a", 1⟩ : Coder Nat)), ("default", ⟨"a", 0⟩)] ≠
      some ⟨"a", 0⟩ :=
  ⟨rfl, by decide⟩

/-- C9 amended: when the persistence layer appends a non-empty list of coders
whose names are pairwise distinct and none of which is named "default", it
writes a mapping containing each input coder, unaltered, under its own name,
plus the first coder of the list under the key "default", and returns the
transform directory path unchanged. -/
theorem claim_append_coder_assets_amended (dir : String) (c0 : Coder α)
    (rest : List (Coder α))
    (hnod : ((c0 :: rest).map Coder.name).Nodup)
    (hdef : "default" ∉ (c0 :: rest).map Coder.name) :
    ∃ m, append_coder_assets dir (c0 :: rest) = some (m, dir) ∧
      (∀ c ∈ c0 :: rest, lookupKey c.name m = some c) ∧
      lookupKey "default" m = some c0 := by
  have hfold := coderFold_eq_map (c0 :: rest) [] hnod (by simp)
  have hkeys : ((c0 :: rest).map fun c => (c.name, c)).map Prod.fst =
      (c0 :: rest).map Coder.name := by
    simp
  refine ⟨(c0 :: rest).map (fun c => (c.name, c)) ++ [("default", c0)],
    ?_, ?_, ?_⟩
  · simp only [append_coder_assets]
    rw [hfold, List.nil_append,
      dictInsert_append _ "default" c0 (hkeys ▸ hdef)]
  · intro c hc
    rw [lookupKey_append_left c.name _ _ ?_]
    · exact lookupKey_map_self (c0 :: rest) c hnod hc
    · rw [hkeys]
      exact List.mem_map_of_mem Coder.name hc
  · rw [lookupKey_append_right "default" _ _ (hkeys ▸ hdef)]
    simp [lookupKey]

/-- Witness for C9's amended claim: two distinctly named coders. -/
theorem claim_append_coder_assets_amended_witness :
    ∃ m, append_coder_assets "dir" [(⟨"x", 7⟩ : Coder Nat), ⟨"y", 9⟩] =
      some (m, "dir") ∧
      (∀ c ∈ [(⟨"x", 7⟩ : Coder Nat), ⟨"y", 9⟩],
        lookupKey c.name m = some c) ∧
      lookupKey "default" m = some ⟨"x", 7⟩ :=
  claim_append_coder_assets_amended "dir" ⟨"x", 7⟩ [⟨"y", 9⟩]
    (by decide) (by decide)

/-- C10: the copy step of WriteTransformFn raises
ValueError("Cannot write a TransformFn to its current location.") exactly when
the destination directory path.join(path, "transform_fn") equals the source
SavedModel directory, and performs the copy (of source + "/" to
destination + "/") only when they differ. -/
theorem claim_write_transform_fn_guard (path src : String) :
    (src = pathJoin path "transform_fn" →
      writeTransformFn_copy path src =
        .error "Cannot write a TransformFn to its current location.") ∧
    (src ≠ pathJoin path "transform_fn" →
      writeTransformFn_copy path src =
        .ok (.copied (src ++ "/") (pathJoin path "transform_fn" ++ "/"))) := by
  constructor
  · intro he
    unfold writeTransformFn_copy safe_copy_tree
    rw [if_pos he]
  · intro hne
    unfold writeTransformFn_copy safe_copy_tree
    rw [if_neg hne]

/-- Witness for C10: the guard fires when the SavedModel already lives at
path/transform_fn and the copy happens for a distinct source. -/
theorem claim_write_transform_fn_guard_witness :
    writeTransformFn_copy "/tmp/out" "/tmp/out/transform_fn" =
      .error "Cannot write a TransformFn to its current location." ∧
    writeTransformFn_copy "/tmp/out" "/models/saved" =
      .ok (.copied "/models/saved/" "/tmp/out/transform_fn/") :=
  ⟨(claim_write_transform_fn_guard "/tmp/out" "/tmp/out/transform_fn").1
      (by decide),
   (claim_write_transform_fn_guard "/tmp/out" "/models/saved").2 (by decide)⟩

end TransformFnIO
